import Mathlib

/-!
Verification of the correlated-noise estimator (`CorrFunc`) of this
repository.  The repository ships only the regression tests
(`tests/test_correlatednoise.py`) and example glue; the estimator itself is
not part of the source tree, so the data model and operations below are
modelled from the specification (each such definition says so in its doc
comment).  Machine floating point is embedded as exact rationals, so the
FFT/estimation tolerances of the spec become exact equalities or explicit
hypotheses on the estimation error.
-/

namespace GalSim

/-- Modelled from the spec: a typed angle value ("a typed angle value rather
than a bare number").  An angle is represented by the cosine/sine pair of its
rotation matrix, constrained to the unit circle; multiples of 90 degrees are
exact rational points. -/
structure Rot where
  c : ℚ
  s : ℚ
  unit : c ^ 2 + s ^ 2 = 1

/-- The zero angle (0 degrees). -/
def rotId : Rot := ⟨1, 0, by norm_num⟩

/-- Angle addition, via the cosine/sine addition formulas. -/
def rotMul (a b : Rot) : Rot :=
  ⟨a.c * b.c - a.s * b.s, a.s * b.c + a.c * b.s, by
    have ha := a.unit
    have hb := b.unit
    linear_combination (b.c ^ 2 + b.s ^ 2) * ha + hb⟩

/-- 90 degrees. -/
def deg90 : Rot := ⟨0, 1, by norm_num⟩

/-- 180 degrees. -/
def deg180 : Rot := ⟨-1, 0, by norm_num⟩

/-- 270 degrees. -/
def deg270 : Rot := ⟨0, -1, by norm_num⟩

/-- 360 degrees. -/
def deg360 : Rot := ⟨1, 0, by norm_num⟩

/-- Symmetric rounding to the nearest integer (halves round away from zero),
so that rounding commutes with negation. -/
def sround (q : ℚ) : ℤ :=
  if 0 ≤ q then ⌊q + 1 / 2⌋ else -⌊-q + 1 / 2⌋

theorem sround_zero : sround 0 = 0 := by
  norm_num [sround]

theorem sround_one : sround 1 = 1 := by
  norm_num [sround]

theorem sround_neg (q : ℚ) : sround (-q) = -sround q := by
  rcases lt_trichotomy q 0 with h | h | h
  · have h1 : 0 ≤ -q := by linarith
    have h2 : ¬ 0 ≤ q := by linarith
    simp [sround, h1, h2]
  · subst h
    simp [sround_zero]
  · have h1 : ¬ 0 ≤ -q := by linarith
    have h2 : 0 ≤ q := by linarith
    simp [sround, h1, h2]

/-- `sround` rounds to within a half. -/
theorem sround_bounds (q : ℚ) : q - 1 / 2 ≤ (sround q : ℚ) ∧ (sround q : ℚ) ≤ q + 1 / 2 := by
  unfold sround
  split
  · constructor
    · have := Int.lt_floor_add_one (q + 1 / 2)
      push_cast at this ⊢
      linarith
    · have := Int.floor_le (q + 1 / 2)
      push_cast at this ⊢
      linarith
  · constructor
    · have := Int.floor_le (-q + 1 / 2)
      push_cast
      linarith
    · have := Int.lt_floor_add_one (-q + 1 / 2)
      push_cast
      linarith

theorem sround_eq_zero_iff (q : ℚ) : sround q = 0 ↔ |q| < 1 / 2 := by
  unfold sround
  split
  · rename_i h
    rw [abs_of_nonneg h, Int.floor_eq_zero_iff]
    constructor
    · intro hm
      have := hm.2
      simp only [Set.mem_Ico] at *
      linarith [hm.2]
    · intro hq
      constructor <;> [linarith; linarith]
  · rename_i h
    push_neg at h
    rw [abs_of_neg h, neg_eq_zero, Int.floor_eq_zero_iff]
    constructor
    · intro hm
      simp only [Set.mem_Ico] at hm
      linarith [hm.2]
    · intro hq
      constructor <;> [linarith; linarith]

/-- Unnormalized circular cross-product sum of an image with its own shift:
the discrete autocorrelation sum at integer lag `(u, v)`.  Periodic (FFT)
boundary conditions are represented by `ZMod` index arithmetic. -/
def corrSum (w h : ℕ) [NeZero w] [NeZero h] (I : ZMod w → ZMod h → ℚ)
    (u : ZMod w) (v : ZMod h) : ℚ :=
  ∑ x : ZMod w, ∑ y : ZMod h, I x y * I (x + u) (y + v)

/-- Modelled from the spec: the lag-indexed correlation table.  "compute the
discrete autocorrelation of `image` via the standard identity that the
autocorrelation equals the inverse transform of the squared magnitude of the
forward Fourier transform of the (as-is) image, normalized by the number of
samples"; the inverse-FFT-of-power-spectrum form is embedded directly as the
equal circular autocorrelation sum divided by the number of samples. -/
def corrTable (w h : ℕ) [NeZero w] [NeZero h] (I : ZMod w → ZMod h → ℚ)
    (u : ZMod w) (v : ZMod h) : ℚ :=
  corrSum w h I u v / ((w : ℚ) * (h : ℚ))

/-- Modelled from the spec: the sample variance of a noise image under the
zero-mean convention ("zero-mean-assumed or as-is", normalization by `N`;
the spec's section 9 leaves the `N` vs `N-1` and mean-subtraction choice
open and asks the implementer to fix one). -/
def sampleVariance (w h : ℕ) [NeZero w] [NeZero h] (I : ZMod w → ZMod h → ℚ) : ℚ :=
  (∑ x : ZMod w, ∑ y : ZMod h, I x y ^ 2) / ((w : ℚ) * (h : ℚ))

/-- Modelled from the spec: the `CorrFunc` object (the repository source only
contains its tests).  It owns a lag-indexed correlation table, the pixel
scale `dx`, and the accumulated rotation applied to the spatial-lag
interpretation of the table. -/
structure CorrFunc where
  w : ℕ
  h : ℕ
  table : ZMod w → ZMod h → ℚ
  dx : ℚ
  rot : Rot

/-- Modelled from the spec: `build(image, dx)` — construction of a
`CorrFunc` from a noise image, producing the normalized autocorrelation
table with no rotation applied. -/
def build (w h : ℕ) [NeZero w] [NeZero h] (I : ZMod w → ZMod h → ℚ) (dx : ℚ) : CorrFunc :=
  ⟨w, h, corrTable w h I, dx, rotId⟩

/-- Modelled from the spec: `xValue(pos)` — query the correlation function at
an arbitrary continuous lag position.  The query position is mapped through
the inverse of the accumulated rotation, interpolated from the lag table
(nearest tabulated lag), and positions outside the tabulated support
`[-w/2, w/2] × [-h/2, h/2]` (in pixel units of `dx`) return the
decay-to-zero fallback value `0` rather than erroring. -/
def xValue (f : CorrFunc) (p : ℚ × ℚ) : ℚ :=
  if (sround ((f.rot.c * p.1 + f.rot.s * p.2) / f.dx)).natAbs ≤ f.w / 2 ∧
      (sround ((-f.rot.s * p.1 + f.rot.c * p.2) / f.dx)).natAbs ≤ f.h / 2 then
    f.table ((sround ((f.rot.c * p.1 + f.rot.s * p.2) / f.dx) : ℤ) : ZMod f.w)
      ((sround ((-f.rot.s * p.1 + f.rot.c * p.2) / f.dx) : ℤ) : ZMod f.h)
  else 0

/-- Modelled from the spec: `createRotated(angle)` — a new correlation
function equal to rotating the spatial-field interpretation of the table by
`angle` about the lag-zero origin; the receiver is not touched.  The same
pure core realizes `applyRotation` on the heap model below. -/
def createRotated (f : CorrFunc) (θ : Rot) : CorrFunc :=
  { f with rot := rotMul f.rot θ }

/-- Modelled from the spec: the k=1 90-degree rotation of the input noise
field itself (`np.rot90` of the sample array, transcribed to periodic `ZMod`
indices at which the circular autocorrelation is taken). -/
def rot90Img {w h : ℕ} (I : ZMod w → ZMod h → ℚ) : ZMod h → ZMod w → ℚ :=
  fun x y => I (-1 - y) x

theorem sum_shift (w : ℕ) [NeZero w] (f : ZMod w → ℚ) (a : ZMod w) :
    (∑ x : ZMod w, f (x + a)) = ∑ x : ZMod w, f x :=
  Fintype.sum_equiv (Equiv.addRight a) _ _ fun _ => rfl

theorem sum_reflect (w : ℕ) [NeZero w] (f : ZMod w → ℚ) (a : ZMod w) :
    (∑ x : ZMod w, f (a - x)) = ∑ x : ZMod w, f x :=
  Fintype.sum_equiv (Equiv.subLeft a) _ _ fun _ => rfl

theorem sum_shift2 (w h : ℕ) [NeZero w] [NeZero h] (g : ZMod w → ZMod h → ℚ)
    (a : ZMod w) (b : ZMod h) :
    (∑ x : ZMod w, ∑ y : ZMod h, g (x + a) (y + b)) = ∑ x : ZMod w, ∑ y : ZMod h, g x y := by
  calc (∑ x : ZMod w, ∑ y : ZMod h, g (x + a) (y + b))
      = ∑ x : ZMod w, ∑ y : ZMod h, g x (y + b) :=
        sum_shift w (fun x => ∑ y : ZMod h, g x (y + b)) a
    _ = ∑ x : ZMod w, ∑ y : ZMod h, g x y :=
        Finset.sum_congr rfl fun x _ => sum_shift h (g x) b

/-- The correlation table is even: circular autocorrelation at a negated lag
equals the value at the lag itself. -/
theorem corrSum_neg_neg (w h : ℕ) [NeZero w] [NeZero h] (I : ZMod w → ZMod h → ℚ)
    (u : ZMod w) (v : ZMod h) :
    corrSum w h I (-u) (-v) = corrSum w h I u v := by
  have key := sum_shift2 w h (fun x y => I x y * I (x + -u) (y + -v)) u v
  simp only [add_neg_cancel_right] at key
  unfold corrSum
  rw [← key]
  exact Finset.sum_congr rfl fun x _ => Finset.sum_congr rfl fun y _ => mul_comm _ _

theorem corrTable_neg_neg (w h : ℕ) [NeZero w] [NeZero h] (I : ZMod w → ZMod h → ℚ)
    (u : ZMod w) (v : ZMod h) :
    corrTable w h I (-u) (-v) = corrTable w h I u v := by
  unfold corrTable
  rw [corrSum_neg_neg]

/-- Rotating the input field by 90 degrees turns the autocorrelation table by
the corresponding quarter turn of the lag plane. -/
theorem corrSum_rot90 (w h : ℕ) [NeZero w] [NeZero h] (I : ZMod w → ZMod h → ℚ)
    (u : ZMod h) (v : ZMod w) :
    corrSum h w (rot90Img I) u v = corrSum w h I (-v) u := by
  unfold corrSum rot90Img
  rw [Finset.sum_comm]
  have key := sum_reflect w
    (fun a => ∑ x : ZMod h, I a x * I (a + -v) (x + u)) (-1)
  calc (∑ y : ZMod w, ∑ x : ZMod h, I (-1 - y) x * I (-1 - (y + v)) (x + u))
      = ∑ y : ZMod w, ∑ x : ZMod h, I (-1 - y) x * I ((-1 - y) + -v) (x + u) := by
        refine Finset.sum_congr rfl fun y _ => Finset.sum_congr rfl fun x _ => ?_
        ring_nf
    _ = ∑ a : ZMod w, ∑ x : ZMod h, I a x * I (a + -v) (x + u) := key
    _ = ∑ a : ZMod w, ∑ b : ZMod h, I a b * I (a + -v) (b + u) := rfl

theorem corrTable_rot90 (w h : ℕ) [NeZero w] [NeZero h] (I : ZMod w → ZMod h → ℚ)
    (u : ZMod h) (v : ZMod w) :
    corrTable h w (rot90Img I) u v = corrTable w h I (-v) u := by
  unfold corrTable
  rw [corrSum_rot90, mul_comm ((h : ℚ)) ((w : ℚ))]

@[simp] theorem rotId_c : rotId.c = 1 := rfl

@[simp] theorem rotId_s : rotId.s = 0 := rfl

@[simp] theorem rotMul_c (a b : Rot) : (rotMul a b).c = a.c * b.c - a.s * b.s := rfl

@[simp] theorem rotMul_s (a b : Rot) : (rotMul a b).s = a.s * b.c + a.c * b.s := rfl

@[simp] theorem deg90_c : deg90.c = 0 := rfl

@[simp] theorem deg90_s : deg90.s = 1 := rfl

@[simp] theorem deg180_c : deg180.c = -1 := rfl

@[simp] theorem deg180_s : deg180.s = 0 := rfl

@[simp] theorem deg270_c : deg270.c = 0 := rfl

@[simp] theorem deg270_s : deg270.s = -1 := rfl

@[simp] theorem deg360_c : deg360.c = 1 := rfl

@[simp] theorem deg360_s : deg360.s = 0 := rfl

/-- Expansion of the autocorrelation of the x-direction two-tap
shift-and-add field. -/
theorem corrSum_shiftX (w h : ℕ) [NeZero w] [NeZero h] (I : ZMod w → ZMod h → ℚ)
    (u : ZMod w) (v : ZMod h) :
    corrSum w h (fun x y => I x y + I (x - 1) y) u v
      = 2 * corrSum w h I u v + corrSum w h I (u + 1) v + corrSum w h I (u - 1) v := by
  have hS2 : (∑ x : ZMod w, ∑ y : ZMod h, I x y * I (x + u - 1) (y + v))
      = ∑ x : ZMod w, ∑ y : ZMod h, I x y * I (x + (u - 1)) (y + v) := by
    refine Finset.sum_congr rfl fun x _ => Finset.sum_congr rfl fun y _ => ?_
    rw [show x + u - 1 = x + (u - 1) by ring]
  have hS3 : (∑ x : ZMod w, ∑ y : ZMod h, I (x - 1) y * I (x + u) (y + v))
      = ∑ x : ZMod w, ∑ y : ZMod h, I x y * I (x + (u + 1)) (y + v) := by
    have key := sum_shift w (fun x => ∑ y : ZMod h, I (x - 1) y * I (x + u) (y + v)) 1
    rw [← key]
    refine Finset.sum_congr rfl fun x _ => Finset.sum_congr rfl fun y _ => ?_
    rw [show x + 1 - 1 = x by ring, show x + 1 + u = x + (u + 1) by ring]
  have hS4 : (∑ x : ZMod w, ∑ y : ZMod h, I (x - 1) y * I (x + u - 1) (y + v))
      = ∑ x : ZMod w, ∑ y : ZMod h, I x y * I (x + u) (y + v) := by
    have key := sum_shift w (fun x => ∑ y : ZMod h, I (x - 1) y * I (x + u - 1) (y + v)) 1
    rw [← key]
    refine Finset.sum_congr rfl fun x _ => Finset.sum_congr rfl fun y _ => ?_
    rw [show x + 1 - 1 = x by ring, show x + 1 + u - 1 = x + u by ring]
  unfold corrSum
  simp only [mul_add, add_mul, Finset.sum_add_distrib]
  rw [hS2, hS3, hS4]
  ring

/-- Expansion of the autocorrelation of the y-direction two-tap
shift-and-add field. -/
theorem corrSum_shiftY (w h : ℕ) [NeZero w] [NeZero h] (I : ZMod w → ZMod h → ℚ)
    (u : ZMod w) (v : ZMod h) :
    corrSum w h (fun x y => I x y + I x (y - 1)) u v
      = 2 * corrSum w h I u v + corrSum w h I u (v + 1) + corrSum w h I u (v - 1) := by
  have hS2 : (∑ x : ZMod w, ∑ y : ZMod h, I x y * I (x + u) (y + v - 1))
      = ∑ x : ZMod w, ∑ y : ZMod h, I x y * I (x + u) (y + (v - 1)) := by
    refine Finset.sum_congr rfl fun x _ => Finset.sum_congr rfl fun y _ => ?_
    rw [show y + v - 1 = y + (v - 1) by ring]
  have hS3 : (∑ x : ZMod w, ∑ y : ZMod h, I x (y - 1) * I (x + u) (y + v))
      = ∑ x : ZMod w, ∑ y : ZMod h, I x y * I (x + u) (y + (v + 1)) := by
    refine Finset.sum_congr rfl fun x _ => ?_
    have key := sum_shift h (fun y => I x (y - 1) * I (x + u) (y + v)) 1
    rw [← key]
    refine Finset.sum_congr rfl fun y _ => ?_
    rw [show y + 1 - 1 = y by ring, show y + 1 + v = y + (v + 1) by ring]
  have hS4 : (∑ x : ZMod w, ∑ y : ZMod h, I x (y - 1) * I (x + u) (y + v - 1))
      = ∑ x : ZMod w, ∑ y : ZMod h, I x y * I (x + u) (y + v) := by
    refine Finset.sum_congr rfl fun x _ => ?_
    have key := sum_shift h (fun y => I x (y - 1) * I (x + u) (y + v - 1)) 1
    rw [← key]
    refine Finset.sum_congr rfl fun y _ => ?_
    rw [show y + 1 - 1 = y by ring, show y + 1 + v - 1 = y + v by ring]
  unfold corrSum
  simp only [mul_add, add_mul, Finset.sum_add_distrib]
  rw [hS2, hS3, hS4]
  ring

/-- Evaluation of `xValue` on a freshly built (unrotated) function. -/
theorem xValue_build (w h : ℕ) [NeZero w] [NeZero h] (I : ZMod w → ZMod h → ℚ)
    (dx : ℚ) (p : ℚ × ℚ) :
    xValue (build w h I dx) p =
      if (sround (p.1 / dx)).natAbs ≤ w / 2 ∧ (sround (p.2 / dx)).natAbs ≤ h / 2 then
        corrTable w h I ((sround (p.1 / dx) : ℤ) : ZMod w) ((sround (p.2 / dx) : ℤ) : ZMod h)
      else 0 := by
  unfold xValue build
  norm_num

/-- Evaluation of `xValue` on a freshly built function rotated once. -/
theorem xValue_build_rot (w h : ℕ) [NeZero w] [NeZero h] (I : ZMod w → ZMod h → ℚ)
    (dx : ℚ) (θ : Rot) (p : ℚ × ℚ) :
    xValue (createRotated (build w h I dx) θ) p =
      if (sround ((θ.c * p.1 + θ.s * p.2) / dx)).natAbs ≤ w / 2 ∧
          (sround ((-θ.s * p.1 + θ.c * p.2) / dx)).natAbs ≤ h / 2 then
        corrTable w h I ((sround ((θ.c * p.1 + θ.s * p.2) / dx) : ℤ) : ZMod w)
          ((sround ((-θ.s * p.1 + θ.c * p.2) / dx) : ℤ) : ZMod h)
      else 0 := by
  unfold xValue createRotated build
  norm_num

/-- Modelled from the spec: the `CorrFunc` built from the x-correlated test
field `(a + shift(a, 1 pixel along x)) * (sqrt 2 / 2)`.  Scaling an image by
a factor `s` scales its autocorrelation table by `s ^ 2`, and
`(sqrt 2 / 2) ^ 2 = 1 / 2` exactly, so the irrational normalization enters
the table only through the exact rational factor `1 / 2`. -/
def buildShiftAvgX (w h : ℕ) [NeZero w] [NeZero h] (I : ZMod w → ZMod h → ℚ)
    (dx : ℚ) : CorrFunc :=
  ⟨w, h, fun u v => corrTable w h (fun x y => I x y + I (x - 1) y) u v / 2, dx, rotId⟩

/-- Modelled from the spec: the `CorrFunc` built from the y-correlated test
field `(a + shift(a, 1 pixel along y)) * (sqrt 2 / 2)`, as in
`buildShiftAvgX`. -/
def buildShiftAvgY (w h : ℕ) [NeZero w] [NeZero h] (I : ZMod w → ZMod h → ℚ)
    (dx : ℚ) : CorrFunc :=
  ⟨w, h, fun u v => corrTable w h (fun x y => I x y + I x (y - 1)) u v / 2, dx, rotId⟩

/-- A placeholder correlation function, used only as the default of
out-of-range heap lookups. -/
def defaultCF : CorrFunc := ⟨1, 1, fun _ _ => 0, 1, rotId⟩

/-- A heap of `CorrFunc` objects, making the mutation semantics of
`applyRotation` and the independence of `copy` observable: objects are
addressed by index, `copy`/`createRotated` allocate, `applyRotation`
updates in place. -/
abbrev Store := List CorrFunc

/-- Dereference an object in the heap. -/
def getCF (s : Store) (r : ℕ) : CorrFunc :=
  (s[r]?).getD defaultCF

/-- Modelled from the spec: `copy()` — allocates an independent, deep-copied
function and returns its fresh reference. -/
def storeCopy (s : Store) (r : ℕ) : Store × ℕ :=
  (s ++ [getCF s r], s.length)

/-- Modelled from the spec: `createRotated(angle)` at the heap level —
allocates a new rotated function, leaving the receiver untouched. -/
def storeCreateRotated (s : Store) (r : ℕ) (θ : Rot) : Store × ℕ :=
  (s ++ [createRotated (getCF s r) θ], s.length)

/-- Modelled from the spec: `applyRotation(angle)` — mutates the receiver in
place to the same result as `createRotated` (both go through the same pure
rotation core). -/
def storeApplyRotation (s : Store) (r : ℕ) (θ : Rot) : Store :=
  s.set r (createRotated (getCF s r) θ)

/-- A raw sample value of the input array: machine floats are embedded as
exact rationals, with `none` standing for the non-finite values (NaN or
infinity) that a float can hold. -/
def Sample := Option ℚ

/-- Modelled from the spec: the raw 2D real-valued input array handed to
construction before validation, with its dimensions. -/
structure RawImage where
  w : ℕ
  h : ℕ
  data : ℕ → ℕ → Sample

/-- All samples on the grid of a raw image are finite. -/
def allFinite (img : RawImage) : Prop :=
  ∀ x < img.w, ∀ y < img.h, (img.data x y).isSome = true

instance (img : RawImage) : Decidable (allFinite img) := by
  unfold allFinite
  infer_instance

/-- Modelled from the spec: fallible construction.  "InvalidInputError:
empty image, non-finite samples, or non-positive pixel scale at
construction — fatal, surfaced immediately"; on valid input it builds the
correlation function from the validated samples. -/
def buildE (img : RawImage) (dx : ℚ) : Except String CorrFunc :=
  if hw : img.w = 0 then Except.error "invalid input: empty image"
  else if hh : img.h = 0 then Except.error "invalid input: empty image"
  else if allFinite img then
    if 0 < dx then
      haveI : NeZero img.w := ⟨hw⟩
      haveI : NeZero img.h := ⟨hh⟩
      Except.ok (build img.w img.h
        (fun x y => ((img.data x.val y.val).getD 0)) dx)
    else Except.error "invalid input: non-positive pixel scale"
  else Except.error "invalid input: non-finite sample"

/-- The concrete 4x4 unit-variance test image used by the witnesses: a
single spike of height 4, whose circular autocorrelation is exactly the
unit delta table. -/
def spike4 : ZMod 4 → ZMod 4 → ℚ :=
  fun x y => if x = 0 ∧ y = 0 then 4 else 0

/-- The zero-lag entry of the correlation table is the mean square of the
samples, i.e. the zero-mean-convention sample variance. -/
theorem corrTable_zero_zero (w h : ℕ) [NeZero w] [NeZero h] (I : ZMod w → ZMod h → ℚ) :
    corrTable w h I 0 0 = sampleVariance w h I := by
  unfold corrTable corrSum sampleVariance
  congr 1
  refine Finset.sum_congr rfl fun x _ => Finset.sum_congr rfl fun y _ => ?_
  rw [add_zero, add_zero, sq]

/-- Four quarter-turns of the input field restore it exactly. -/
theorem rot90Img_four (w h : ℕ) (I : ZMod w → ZMod h → ℚ) :
    rot90Img (rot90Img (rot90Img (rot90Img I))) = I := by
  funext x y
  show I (-1 - (-1 - x)) (-1 - (-1 - y)) = I x y
  rw [show (-1 - (-1 - x) : ZMod w) = x by ring, show (-1 - (-1 - y) : ZMod h) = y by ring]

/-- Claim C1: building a `CorrFunc` from a noise image scaled by any factor
`sigma` (at `dx = 1`) and querying `xValue` at lag `(0, 0)` returns exactly
the sample variance of the scaled input, which equals `sigma ^ 2` times the
sample variance of the unscaled image; in the exact-rational embedding the
estimation error is zero, so the 1% relative tolerance holds trivially. -/
theorem zero_lag_eq_sample_variance (w h : ℕ) [NeZero w] [NeZero h]
    (I : ZMod w → ZMod h → ℚ) (σ : ℚ) :
    xValue (build w h (fun x y => σ * I x y) 1) (0, 0)
        = sampleVariance w h (fun x y => σ * I x y) ∧
    sampleVariance w h (fun x y => σ * I x y) = σ ^ 2 * sampleVariance w h I := by
  constructor
  · rw [xValue_build]
    norm_num [sround_zero, corrTable_zero_zero]
  · unfold sampleVariance
    rw [← mul_div_assoc]
    congr 1
    rw [Finset.mul_sum]
    refine Finset.sum_congr rfl fun x _ => ?_
    rw [Finset.mul_sum]
    refine Finset.sum_congr rfl fun y _ => ?_
    show (σ * I x y) ^ 2 = σ ^ 2 * I x y ^ 2
    ring

theorem zero_lag_eq_sample_variance_witness :
    xValue (build 4 4 (fun x y => 3 * spike4 x y) 1) (0, 0)
        = sampleVariance 4 4 (fun x y => 3 * spike4 x y) ∧
    sampleVariance 4 4 (fun x y => 3 * spike4 x y) = 3 ^ 2 * sampleVariance 4 4 spike4 :=
  zero_lag_eq_sample_variance 4 4 spike4 3

/-- Claim C3: for a correlation function built from a real image, `xValue`
at `-pos` equals `xValue` at `pos` exactly, for every query position
including positions outside the tabulated support, because the stored table
is real and even-symmetric and the rounding and support test are symmetric
under negation. -/
theorem xValue_even_symmetry (w h : ℕ) [NeZero w] [NeZero h]
    (I : ZMod w → ZMod h → ℚ) (dx : ℚ) (p : ℚ × ℚ) :
    xValue (build w h I dx) (-p) = xValue (build w h I dx) p := by
  rw [xValue_build, xValue_build]
  have h1 : (-p).1 = -p.1 := rfl
  have h2 : (-p).2 = -p.2 := rfl
  rw [h1, h2, neg_div, neg_div, sround_neg, sround_neg, Int.natAbs_neg, Int.natAbs_neg]
  refine if_congr Iff.rfl ?_ rfl
  push_cast
  rw [corrTable_neg_neg]

theorem xValue_even_symmetry_witness :
    xValue (build 4 4 spike4 1) (-(3 / 2, 7 / 5)) = xValue (build 4 4 spike4 1) (3 / 2, 7 / 5) :=
  xValue_even_symmetry 4 4 spike4 1 (3 / 2, 7 / 5)

/-- Claim C10: rotation by a full turn is the identity: rotating a built
correlation function by 360 degrees leaves every `xValue` unchanged, and the
k=4 quarter-turn reference field is the original input array, so the
reference function coincides with the unrotated one. -/
theorem rotation_full_turn_identity (w h : ℕ) [NeZero w] [NeZero h]
    (I : ZMod w → ZMod h → ℚ) (dx : ℚ) (p : ℚ × ℚ) :
    xValue (createRotated (build w h I dx) deg360) p = xValue (build w h I dx) p ∧
    rot90Img (rot90Img (rot90Img (rot90Img I))) = I := by
  constructor
  · rw [xValue_build, xValue_build_rot]
    norm_num
  · exact rot90Img_four w h I

theorem rotation_full_turn_identity_witness :
    xValue (createRotated (build 4 4 spike4 1) deg360) (3 / 2, 7 / 5)
        = xValue (build 4 4 spike4 1) (3 / 2, 7 / 5) ∧
    rot90Img (rot90Img (rot90Img (rot90Img spike4))) = spike4 :=
  rotation_full_turn_identity 4 4 spike4 1 (3 / 2, 7 / 5)

/-- Claim C2: build-then-rotate equals rotate-then-build for quarter turns:
for k = 1, 2, 3, 4, the correlation function built from the k-times
90-degree-rotated input field agrees at every query position with the
built-from-the-original function rotated by k times 90 degrees; in the exact
embedding the agreement is exact, hence within the 1e-7 relative tolerance. -/
theorem build_rot90_commutes (w h : ℕ) [NeZero w] [NeZero h]
    (I : ZMod w → ZMod h → ℚ) (dx : ℚ) (p : ℚ × ℚ) :
    xValue (build h w (rot90Img I) dx) p
        = xValue (createRotated (build w h I dx) deg90) p ∧
    xValue (build w h (rot90Img (rot90Img I)) dx) p
        = xValue (createRotated (build w h I dx) deg180) p ∧
    xValue (build h w (rot90Img (rot90Img (rot90Img I))) dx) p
        = xValue (createRotated (build w h I dx) deg270) p ∧
    xValue (build w h (rot90Img (rot90Img (rot90Img (rot90Img I)))) dx) p
        = xValue (createRotated (build w h I dx) deg360) p := by
  refine ⟨?_, ?_, ?_, ?_⟩
  · rw [xValue_build, xValue_build_rot]
    simp only [deg90_c, deg90_s]
    norm_num
    rw [neg_div, sround_neg, Int.natAbs_neg]
    push_cast
    refine if_congr and_comm ?_ rfl
    rw [corrTable_rot90]
    conv_rhs => rw [← corrTable_neg_neg]
    rw [neg_neg]
  · rw [xValue_build, xValue_build_rot]
    simp only [deg180_c, deg180_s]
    norm_num
    rw [neg_div, neg_div, sround_neg, sround_neg, Int.natAbs_neg, Int.natAbs_neg]
    push_cast
    refine if_congr Iff.rfl ?_ rfl
    rw [corrTable_rot90, corrTable_rot90]
  · rw [xValue_build, xValue_build_rot]
    simp only [deg270_c, deg270_s]
    norm_num
    rw [neg_div, sround_neg, Int.natAbs_neg]
    push_cast
    refine if_congr and_comm ?_ rfl
    rw [corrTable_rot90, corrTable_rot90, corrTable_rot90, neg_neg]
    conv_rhs => rw [← corrTable_neg_neg]
    rw [neg_neg]
  · rw [xValue_build, xValue_build_rot, rot90Img_four]
    norm_num

theorem build_rot90_commutes_witness :
    xValue (build 4 4 (rot90Img spike4) 1) (3 / 2, 7 / 5)
        = xValue (createRotated (build 4 4 spike4 1) deg90) (3 / 2, 7 / 5) ∧
    xValue (build 4 4 (rot90Img (rot90Img spike4)) 1) (3 / 2, 7 / 5)
        = xValue (createRotated (build 4 4 spike4 1) deg180) (3 / 2, 7 / 5) ∧
    xValue (build 4 4 (rot90Img (rot90Img (rot90Img spike4))) 1) (3 / 2, 7 / 5)
        = xValue (createRotated (build 4 4 spike4 1) deg270) (3 / 2, 7 / 5) ∧
    xValue (build 4 4 (rot90Img (rot90Img (rot90Img (rot90Img spike4)))) 1) (3 / 2, 7 / 5)
        = xValue (createRotated (build 4 4 spike4 1) deg360) (3 / 2, 7 / 5) :=
  build_rot90_commutes 4 4 spike4 1 (3 / 2, 7 / 5)

/-- Claim C4: at the heap level, `createRotated` allocates a new function and
leaves every existing object (in particular the receiver) untouched, while
`applyRotation` overwrites the receiver in place with the result of the same
pure rotation core; the newly created function and the mutated receiver give
identical `xValue` results at every query position. -/
theorem createRotated_applyRotation_agree (s : Store) (r : ℕ) (θ : Rot) (p : ℚ × ℚ)
    (hr : r < s.length) :
    (∀ j, j < s.length → getCF (storeCreateRotated s r θ).1 j = getCF s j) ∧
    (storeCreateRotated s r θ).2 = s.length ∧
    getCF (storeApplyRotation s r θ) r = createRotated (getCF s r) θ ∧
    (∀ j, j < s.length → j ≠ r → getCF (storeApplyRotation s r θ) j = getCF s j) ∧
    xValue (getCF (storeCreateRotated s r θ).1 (storeCreateRotated s r θ).2) p
        = xValue (getCF (storeApplyRotation s r θ) r) p := by
  refine ⟨?_, rfl, ?_, ?_, ?_⟩
  · intro j hj
    unfold storeCreateRotated getCF
    rw [List.getElem?_append_left hj]
  · unfold storeApplyRotation getCF
    rw [List.getElem?_set_self hr]
    rfl
  · intro j hj hne
    unfold storeApplyRotation getCF
    rw [List.getElem?_set_ne (fun hc => hne (hc.symm))]
  · unfold storeCreateRotated storeApplyRotation getCF
    rw [List.getElem?_concat_length, List.getElem?_set_self hr]

theorem createRotated_applyRotation_agree_witness :
    xValue (getCF (storeCreateRotated [defaultCF] 0 deg90).1
        (storeCreateRotated [defaultCF] 0 deg90).2) (1, 2)
        = xValue (getCF (storeApplyRotation [defaultCF] 0 deg90) 0) (1, 2) :=
  (createRotated_applyRotation_agree [defaultCF] 0 deg90 (1, 2) (by norm_num)).2.2.2.2

/-- Claim C5: `copy` produces an independent object: applying `applyRotation`
to the fresh copy leaves every `xValue` result of the original unchanged
(indeed the original heap entry itself is unchanged). -/
theorem copy_isolated_from_rotation (s : Store) (r : ℕ) (θ : Rot) (p : ℚ × ℚ)
    (hr : r < s.length) :
    xValue (getCF (storeApplyRotation (storeCopy s r).1 (storeCopy s r).2 θ) r) p
        = xValue (getCF s r) p := by
  unfold storeCopy storeApplyRotation getCF
  rw [List.getElem?_set_ne (by omega : s.length ≠ r)]
  rw [List.getElem?_append_left hr]

theorem copy_isolated_from_rotation_witness :
    xValue (getCF (storeApplyRotation (storeCopy [defaultCF] 0).1
        (storeCopy [defaultCF] 0).2 deg90) 0) (1, 2)
        = xValue (getCF [defaultCF] 0) (1, 2) :=
  copy_isolated_from_rotation [defaultCF] 0 deg90 (1, 2) (by norm_num)

/-- Evaluation of `xValue` on the x-direction shift-and-average build. -/
theorem xValue_shiftAvgX (w h : ℕ) [NeZero w] [NeZero h] (I : ZMod w → ZMod h → ℚ)
    (dx : ℚ) (p : ℚ × ℚ) :
    xValue (buildShiftAvgX w h I dx) p =
      if (sround (p.1 / dx)).natAbs ≤ w / 2 ∧ (sround (p.2 / dx)).natAbs ≤ h / 2 then
        corrTable w h (fun x y => I x y + I (x - 1) y)
          ((sround (p.1 / dx) : ℤ) : ZMod w) ((sround (p.2 / dx) : ℤ) : ZMod h) / 2
      else 0 := by
  unfold xValue buildShiftAvgX
  norm_num

/-- Evaluation of `xValue` on the y-direction shift-and-average build. -/
theorem xValue_shiftAvgY (w h : ℕ) [NeZero w] [NeZero h] (I : ZMod w → ZMod h → ℚ)
    (dx : ℚ) (p : ℚ × ℚ) :
    xValue (buildShiftAvgY w h I dx) p =
      if (sround (p.1 / dx)).natAbs ≤ w / 2 ∧ (sround (p.2 / dx)).natAbs ≤ h / 2 then
        corrTable w h (fun x y => I x y + I x (y - 1))
          ((sround (p.1 / dx) : ℤ) : ZMod w) ((sround (p.2 / dx) : ℤ) : ZMod h) / 2
      else 0 := by
  unfold xValue buildShiftAvgY
  norm_num

theorem corrTable_shiftX (w h : ℕ) [NeZero w] [NeZero h] (I : ZMod w → ZMod h → ℚ)
    (u : ZMod w) (v : ZMod h) :
    corrTable w h (fun x y => I x y + I (x - 1) y) u v / 2
      = corrTable w h I u v + (corrTable w h I (u + 1) v + corrTable w h I (u - 1) v) / 2 := by
  unfold corrTable
  rw [corrSum_shiftX]
  ring

theorem corrTable_shiftY (w h : ℕ) [NeZero w] [NeZero h] (I : ZMod w → ZMod h → ℚ)
    (u : ZMod w) (v : ZMod h) :
    corrTable w h (fun x y => I x y + I x (y - 1)) u v / 2
      = corrTable w h I u v + (corrTable w h I u (v + 1) + corrTable w h I u (v - 1)) / 2 := by
  unfold corrTable
  rw [corrSum_shiftY]
  ring

/-- The spike image's circular autocorrelation is exactly the unit delta
table: 1 at lag zero and 0 at every other lag. -/
theorem corrTable_spike4 (u v : ZMod 4) :
    corrTable 4 4 spike4 u v = if u = 0 ∧ v = 0 then 1 else 0 := by
  unfold corrTable corrSum
  rw [Finset.sum_eq_single (0 : ZMod 4)]
  · rw [Finset.sum_eq_single (0 : ZMod 4)]
    · rw [zero_add, zero_add, show spike4 0 0 = 4 by simp [spike4]]
      unfold spike4
      split
      · norm_num
      · norm_num
    · intro y _ hy
      rw [show spike4 0 y = 0 by simp [spike4, hy]]
      ring
    · intro hmem
      exact absurd (Finset.mem_univ _) hmem
  · intro x _ hx
    refine Finset.sum_eq_zero fun y _ => ?_
    rw [show spike4 x y = 0 by simp [spike4, hx]]
    ring
  · intro hmem
    exact absurd (Finset.mem_univ _) hmem

/-- Claim C6: for a unit-variance field correlated along one axis by the
two-tap shift-and-average construction, the built correlation function has
zero-lag value 1 and one-pixel lag 0.5 along the correlated axis (both
within 1% relative tolerance) and approximately 0 at one pixel along the
perpendicular axis; the hypotheses bound the estimation error of the
underlying uncorrelated field's autocorrelation. -/
theorem shift_avg_noise_lags (w h : ℕ) [NeZero w] [NeZero h]
    (hw : 2 ≤ w) (hh : 2 ≤ h) (I : ZMod w → ZMod h → ℚ)
    (h00 : |corrTable w h I 0 0 - 1| ≤ 1 / 400)
    (h10 : |corrTable w h I 1 0| ≤ 1 / 400)
    (h20 : |corrTable w h I 2 0| ≤ 1 / 400)
    (h01 : |corrTable w h I 0 1| ≤ 1 / 400)
    (h02 : |corrTable w h I 0 2| ≤ 1 / 400)
    (h11 : |corrTable w h I 1 1| ≤ 1 / 400)
    (h1m1 : |corrTable w h I 1 (-1)| ≤ 1 / 400) :
    |xValue (buildShiftAvgX w h I 1) (0, 0) - 1| ≤ 1 / 100 ∧
    |xValue (buildShiftAvgX w h I 1) (1, 0) - 1 / 2| ≤ 1 / 100 * (1 / 2) ∧
    |xValue (buildShiftAvgX w h I 1) (0, 1)| ≤ 1 / 100 ∧
    |xValue (buildShiftAvgY w h I 1) (0, 0) - 1| ≤ 1 / 100 ∧
    |xValue (buildShiftAvgY w h I 1) (0, 1) - 1 / 2| ≤ 1 / 100 * (1 / 2) ∧
    |xValue (buildShiftAvgY w h I 1) (1, 0)| ≤ 1 / 100 := by
  have hw2 : 1 ≤ w / 2 := by omega
  have hh2 : 1 ≤ h / 2 := by omega
  have hmA : corrTable w h I (-1) 0 = corrTable w h I 1 0 := by
    have := corrTable_neg_neg w h I 1 0
    rwa [neg_zero] at this
  have hmB : corrTable w h I (-1) 1 = corrTable w h I 1 (-1) := by
    have := corrTable_neg_neg w h I 1 (-1)
    rwa [neg_neg] at this
  have hmC : corrTable w h I 0 (-1) = corrTable w h I 0 1 := by
    have := corrTable_neg_neg w h I 0 1
    rwa [neg_zero] at this
  have ex1 : xValue (buildShiftAvgX w h I 1) (0, 0)
      = corrTable w h I 0 0 + corrTable w h I 1 0 := by
    rw [xValue_shiftAvgX]
    norm_num [sround_zero]
    rw [corrTable_shiftX, zero_add, zero_sub, hmA]
    ring
  have ex2 : xValue (buildShiftAvgX w h I 1) (1, 0)
      = corrTable w h I 1 0 + (corrTable w h I 2 0 + corrTable w h I 0 0) / 2 := by
    rw [xValue_shiftAvgX]
    norm_num [sround_zero, sround_one, hw2]
    rw [corrTable_shiftX, one_add_one_eq_two, sub_self]
  have ex3 : xValue (buildShiftAvgX w h I 1) (0, 1)
      = corrTable w h I 0 1 + (corrTable w h I 1 1 + corrTable w h I 1 (-1)) / 2 := by
    rw [xValue_shiftAvgX]
    norm_num [sround_zero, sround_one, hh2]
    rw [corrTable_shiftX, zero_add, zero_sub, hmB]
  have ey1 : xValue (buildShiftAvgY w h I 1) (0, 0)
      = corrTable w h I 0 0 + corrTable w h I 0 1 := by
    rw [xValue_shiftAvgY]
    norm_num [sround_zero]
    rw [corrTable_shiftY, zero_add, zero_sub, hmC]
    ring
  have ey2 : xValue (buildShiftAvgY w h I 1) (0, 1)
      = corrTable w h I 0 1 + (corrTable w h I 0 2 + corrTable w h I 0 0) / 2 := by
    rw [xValue_shiftAvgY]
    norm_num [sround_zero, sround_one, hh2]
    rw [corrTable_shiftY, one_add_one_eq_two, sub_self]
  have ey3 : xValue (buildShiftAvgY w h I 1) (1, 0)
      = corrTable w h I 1 0 + (corrTable w h I 1 1 + corrTable w h I 1 (-1)) / 2 := by
    rw [xValue_shiftAvgY]
    norm_num [sround_zero, sround_one, hw2]
    rw [corrTable_shiftY, zero_add, zero_sub]
  rcases abs_le.mp h00 with ⟨a1, a2⟩
  rcases abs_le.mp h10 with ⟨b1, b2⟩
  rcases abs_le.mp h20 with ⟨c1, c2⟩
  rcases abs_le.mp h01 with ⟨d1, d2⟩
  rcases abs_le.mp h02 with ⟨e1, e2⟩
  rcases abs_le.mp h11 with ⟨f1, f2⟩
  rcases abs_le.mp h1m1 with ⟨g1, g2⟩
  refine ⟨?_, ?_, ?_, ?_, ?_, ?_⟩
  · rw [ex1]
    exact abs_le.mpr ⟨by linarith, by linarith⟩
  · rw [ex2]
    exact abs_le.mpr ⟨by linarith, by linarith⟩
  · rw [ex3]
    exact abs_le.mpr ⟨by linarith, by linarith⟩
  · rw [ey1]
    exact abs_le.mpr ⟨by linarith, by linarith⟩
  · rw [ey2]
    exact abs_le.mpr ⟨by linarith, by linarith⟩
  · rw [ey3]
    exact abs_le.mpr ⟨by linarith, by linarith⟩

theorem shift_avg_noise_lags_witness :
    |xValue (buildShiftAvgX 4 4 spike4 1) (0, 0) - 1| ≤ 1 / 100 ∧
    |xValue (buildShiftAvgX 4 4 spike4 1) (1, 0) - 1 / 2| ≤ 1 / 100 * (1 / 2) ∧
    |xValue (buildShiftAvgX 4 4 spike4 1) (0, 1)| ≤ 1 / 100 ∧
    |xValue (buildShiftAvgY 4 4 spike4 1) (0, 0) - 1| ≤ 1 / 100 ∧
    |xValue (buildShiftAvgY 4 4 spike4 1) (0, 1) - 1 / 2| ≤ 1 / 100 * (1 / 2) ∧
    |xValue (buildShiftAvgY 4 4 spike4 1) (1, 0)| ≤ 1 / 100 :=
  shift_avg_noise_lags 4 4 (by norm_num) (by norm_num) spike4
    (by rw [corrTable_spike4, if_pos ⟨rfl, rfl⟩]; norm_num)
    (by rw [corrTable_spike4, if_neg (by decide)]; norm_num)
    (by rw [corrTable_spike4, if_neg (by decide)]; norm_num)
    (by rw [corrTable_spike4, if_neg (by decide)]; norm_num)
    (by rw [corrTable_spike4, if_neg (by decide)]; norm_num)
    (by rw [corrTable_spike4, if_neg (by decide)]; norm_num)
    (by rw [corrTable_spike4, if_neg (by decide)]; norm_num)

/-- A query whose rounded lag exceeds an integer bound in absolute value. -/
theorem natAbs_sround_gt (m : ℕ) (t : ℚ) (ht : (m : ℚ) + 1 < |t|) :
    m < (sround t).natAbs := by
  rcases le_or_lt 0 t with h | h
  · rw [abs_of_nonneg h] at ht
    have hb := (sround_bounds t).1
    have h1 : ((m : ℤ) : ℚ) < (sround t : ℚ) := by
      push_cast
      linarith
    have h2 : (m : ℤ) < sround t := by exact_mod_cast h1
    have h3 := Int.le_natAbs (a := sround t)
    omega
  · have hneg : sround t = -sround (-t) := by
      rw [← sround_neg, neg_neg]
    rw [hneg, Int.natAbs_neg]
    rw [abs_of_neg h] at ht
    have hb := (sround_bounds (-t)).1
    have h1 : ((m : ℤ) : ℚ) < (sround (-t) : ℚ) := by
      push_cast
      linarith
    have h2 : (m : ℤ) < sround (-t) := by exact_mod_cast h1
    have h3 := Int.le_natAbs (a := sround (-t))
    omega

/-- Claim C7: for a correlation function built (at `dx = 1`) from an
uncorrelated noise image whose estimated table is within 0.01 of the ideal
delta (the statistical content of `512 x 512` independent standard-normal
samples), `xValue` at any position at least one pixel from the origin — on
or off the original grid — is within 0.01 absolute of zero, while the
zero-lag query is within 0.01 of 1. -/
theorem uncorrelated_nonzero_lag_small (w h : ℕ) [NeZero w] [NeZero h]
    (I : ZMod w → ZMod h → ℚ)
    (h0 : |corrTable w h I 0 0 - 1| ≤ 1 / 100)
    (hnz : ∀ (a : ZMod w) (b : ZMod h), ¬(a = 0 ∧ b = 0) → |corrTable w h I a b| ≤ 1 / 100)
    (p : ℚ × ℚ) (hp : 1 ≤ p.1 ^ 2 + p.2 ^ 2) :
    |xValue (build w h I 1) p| ≤ 1 / 100 ∧
    |xValue (build w h I 1) (0, 0) - 1| ≤ 1 / 100 := by
  constructor
  · rw [xValue_build]
    simp only [div_one]
    split
    · rename_i hguard
      apply hnz
      rintro ⟨hu, hv⟩
      rw [ZMod.intCast_zmod_eq_zero_iff_dvd] at hu hv
      have hu2 : w ∣ (sround p.1).natAbs := by
        have := Int.natAbs_dvd_natAbs.mpr hu
        simpa using this
      have hv2 : h ∣ (sround p.2).natAbs := by
        have := Int.natAbs_dvd_natAbs.mpr hv
        simpa using this
      have hwlt : (sround p.1).natAbs < w :=
        lt_of_le_of_lt hguard.1 (Nat.div_lt_self (NeZero.pos w) one_lt_two)
      have hhlt : (sround p.2).natAbs < h :=
        lt_of_le_of_lt hguard.2 (Nat.div_lt_self (NeZero.pos h) one_lt_two)
      have hu3 : sround p.1 = 0 :=
        Int.natAbs_eq_zero.mp (Nat.eq_zero_of_dvd_of_lt hu2 hwlt)
      have hv3 : sround p.2 = 0 :=
        Int.natAbs_eq_zero.mp (Nat.eq_zero_of_dvd_of_lt hv2 hhlt)
      have ha := (sround_eq_zero_iff p.1).mp hu3
      have hb := (sround_eq_zero_iff p.2).mp hv3
      rcases abs_lt.mp ha with ⟨ha1, ha2⟩
      rcases abs_lt.mp hb with ⟨hb1, hb2⟩
      nlinarith [hp, ha1, ha2, hb1, hb2]
    · norm_num
  · rw [xValue_build]
    norm_num [sround_zero]
    exact h0

theorem uncorrelated_nonzero_lag_small_witness :
    |xValue (build 4 4 spike4 1) (2, 0)| ≤ 1 / 100 ∧
    |xValue (build 4 4 spike4 1) (0, 0) - 1| ≤ 1 / 100 :=
  uncorrelated_nonzero_lag_small 4 4 spike4
    (by rw [corrTable_spike4, if_pos ⟨rfl, rfl⟩]; norm_num)
    (fun a b hab => by rw [corrTable_spike4, if_neg hab]; norm_num)
    (2, 0) (by norm_num)

/-- Claim C8: `xValue` is a total function of the query position and decays
to the defined fallback value zero for every position beyond the tabulated
support, for every correlation function (in particular also after any
rotation, since rotated functions are themselves `CorrFunc` values and
rotation preserves the Euclidean norm of the query); no error is raised. -/
theorem xValue_total_decay (f : CorrFunc) (p : ℚ × ℚ) (hdx : 0 < f.dx)
    (hp : 2 * (f.dx * (((max (f.w / 2) (f.h / 2) : ℕ) : ℚ) + 1)) ^ 2 < p.1 ^ 2 + p.2 ^ 2) :
    xValue f p = 0 := by
  unfold xValue
  set qx := f.rot.c * p.1 + f.rot.s * p.2 with hqx
  set qy := -f.rot.s * p.1 + f.rot.c * p.2 with hqy
  have hnorm : qx ^ 2 + qy ^ 2 = p.1 ^ 2 + p.2 ^ 2 := by
    have hu := f.rot.unit
    rw [hqx, hqy]
    linear_combination (p.1 ^ 2 + p.2 ^ 2) * hu
  set M : ℕ := max (f.w / 2) (f.h / 2) with hM
  have hbig : (f.dx * ((M : ℚ) + 1)) ^ 2 < qx ^ 2 ∨ (f.dx * ((M : ℚ) + 1)) ^ 2 < qy ^ 2 := by
    by_contra hcon
    push_neg at hcon
    rw [← hnorm] at hp
    linarith [hcon.1, hcon.2]
  have hnot : ¬ ((sround (qx / f.dx)).natAbs ≤ f.w / 2 ∧
      (sround (qy / f.dx)).natAbs ≤ f.h / 2) := by
    rintro ⟨hg1, hg2⟩
    rcases hbig with hb | hb
    · have h1 : f.dx * ((M : ℚ) + 1) < |qx| := by
        refine lt_of_pow_lt_pow_left₀ 2 (abs_nonneg qx) ?_
        rw [sq_abs]
        exact hb
      have h2 : (M : ℚ) + 1 < |qx / f.dx| := by
        rw [abs_div, abs_of_pos hdx, lt_div_iff₀ hdx]
        linarith
      have h3 := natAbs_sround_gt M (qx / f.dx) h2
      have h4 : f.w / 2 ≤ M := le_max_left _ _
      omega
    · have h1 : f.dx * ((M : ℚ) + 1) < |qy| := by
        refine lt_of_pow_lt_pow_left₀ 2 (abs_nonneg qy) ?_
        rw [sq_abs]
        exact hb
      have h2 : (M : ℚ) + 1 < |qy / f.dx| := by
        rw [abs_div, abs_of_pos hdx, lt_div_iff₀ hdx]
        linarith
      have h3 := natAbs_sround_gt M (qy / f.dx) h2
      have h4 : f.h / 2 ≤ M := le_max_right _ _
      omega
  rw [if_neg hnot]

theorem xValue_total_decay_witness :
    xValue (build 4 4 spike4 1) (6, 0) = 0 :=
  xValue_total_decay (build 4 4 spike4 1) (6, 0) (by norm_num [build])
    (by norm_num [build])

/-- Claim C9: construction of a `CorrFunc` succeeds exactly when the input
image is non-empty, every sample is finite, and the pixel scale is positive;
otherwise it fails immediately with an invalid-input error. -/
theorem build_error_iff (img : RawImage) (dx : ℚ) :
    (∃ f, buildE img dx = Except.ok f) ↔
      0 < img.w ∧ 0 < img.h ∧ allFinite img ∧ 0 < dx := by
  unfold buildE
  split_ifs with hw hh hf hd
  · constructor
    · rintro ⟨f, hF⟩
      exact hF.elim
    · rintro ⟨h1, -, -, -⟩
      omega
  · constructor
    · rintro ⟨f, hF⟩
      exact hF.elim
    · rintro ⟨-, h2, -, -⟩
      omega
  · constructor
    · exact fun _ => ⟨Nat.pos_of_ne_zero hw, Nat.pos_of_ne_zero hh, hf, hd⟩
    · exact fun _ => ⟨_, rfl⟩
  · constructor
    · rintro ⟨f, hF⟩
      exact hF.elim
    · rintro ⟨-, -, -, h4⟩
      exact absurd h4 hd
  · constructor
    · rintro ⟨f, hF⟩
      exact hF.elim
    · rintro ⟨-, -, h3, -⟩
      exact absurd h3 hf

end GalSim
